import Mathlib

/-!
Verification of the incremental subset-sum manager and the branch-and-bound
backtracking solver of the first_erdos_problem repository.

The development is a shallow embedding of `src/subset_sum_manager.c` and
`src/backtrack_solver.c`.  GMP integers (`mpz_t`) are arbitrary-precision;
every value handled by the program is non-negative, so they are modelled by
`Nat`.  The hash set is modelled by its observable state: the set of stored
values (a `Finset Nat`; physical bucket order is unspecified in C) together
with its bucket count.  The element array of the manager is modelled by a
list whose head is the most recently pushed element (the C array appends at
the tail; the list here is in reverse push order, and
`subset_sum_manager_get_elements` converts back to push order).
-/

set_option maxRecDepth 4000

-- ===========================================================================
-- Hash set (MpzHashSet in subset_sum_manager.c)
-- ===========================================================================

/-- `#define INITIAL_BUCKET_COUNT 1024` in subset_sum_manager.c. -/
def INITIAL_BUCKET_COUNT : Nat := 1024

/-- Observable state of `MpzHashSet`: the set of stored values and the
bucket count.  `size` in C always equals the number of stored values,
modelled here as `values.card`. -/
@[ext]
structure MpzHashSet where
  values : Finset Nat
  bucket_count : Nat
deriving DecidableEq

/-- `mpz_hashset_create`: empty set; bucket count is the argument when
positive, otherwise `INITIAL_BUCKET_COUNT`. -/
def mpz_hashset_create (initial_buckets : Nat) : MpzHashSet :=
  { values := ∅,
    bucket_count := if initial_buckets > 0 then initial_buckets else INITIAL_BUCKET_COUNT }

/-- `mpz_hashset_contains`: exact membership test. -/
def mpz_hashset_contains (s : MpzHashSet) (value : Nat) : Bool :=
  value ∈ s.values

/-- `mpz_hashset_resize`: doubles the bucket count (rehashing does not change
the stored set of values). -/
def mpz_hashset_resize (s : MpzHashSet) : MpzHashSet :=
  { s with bucket_count := s.bucket_count * 2 }

/-- `mpz_hashset_add`: return false without mutation when the value is
present; otherwise resize when `(double)size / (double)bucket_count > 0.75`
(the bucket count is a power of two and sizes stay far below 2^53, so the
floating-point comparison is exactly `4 * size > 3 * bucket_count`; the check
uses the size before the insertion), then insert. -/
def mpz_hashset_add (s : MpzHashSet) (value : Nat) : Bool × MpzHashSet :=
  if value ∈ s.values then
    (false, s)
  else
    let s1 := if 4 * s.values.card > 3 * s.bucket_count then mpz_hashset_resize s else s
    (true, { s1 with values := insert value s1.values })

/-- `mpz_hashset_remove`: unlink the value when present (the node goes to the
pool; the stored set loses the value), return whether it was present. -/
def mpz_hashset_remove (s : MpzHashSet) (value : Nat) : Bool × MpzHashSet :=
  if value ∈ s.values then
    (true, { s with values := s.values.erase value })
  else
    (false, s)

/-- `mpz_hashset_clear`: all nodes go back to the pool; the stored set
becomes empty, the bucket count is kept. -/
def mpz_hashset_clear (s : MpzHashSet) : MpzHashSet :=
  { s with values := ∅ }

-- ===========================================================================
-- Manager (SubsetSumManager)
-- ===========================================================================

inductive ManagerType where
  | Fast
  | Iterative
deriving DecidableEq

/-- Observable state of `SubsetSumManager`.  `elements` is kept with the most
recently pushed element at the head.  A history frame is the set of sums
recorded by one successful push (`SumsHistory`); the stack keeps the top
frame at the head.  In iterative mode the C code keeps `sums_set` and
`history` as NULL pointers and never touches them; here they stay at their
initial empty values. -/
structure SubsetSumManager where
  mtype : ManagerType
  elements : List Nat
  sums_set : MpzHashSet
  history : List (Finset Nat)
deriving DecidableEq

/-- `subset_sum_manager_create`. -/
def subset_sum_manager_create (t : ManagerType) : SubsetSumManager :=
  { mtype := t,
    elements := [],
    sums_set := mpz_hashset_create INITIAL_BUCKET_COUNT,
    history := [] }

/-- `subset_sum_manager_reset`: drop all elements; in fast mode clear the sum
set (bucket count kept) and empty the history stack. -/
def subset_sum_manager_reset (m : SubsetSumManager) : SubsetSumManager :=
  if m.mtype = ManagerType.Fast then
    { m with elements := [], sums_set := mpz_hashset_clear m.sums_set, history := [] }
  else
    { m with elements := [] }

/-- Values of the updated set after `mpz_hashset_add`: the value is inserted
(a no-op insertion when it was already present). -/
theorem mpz_hashset_add_values (s : MpzHashSet) (v : Nat) :
    ((mpz_hashset_add s v).2).values = insert v s.values := by
  by_cases h : v ∈ s.values
  · simp only [mpz_hashset_add, h, if_true]
    exact (Finset.insert_eq_self.mpr h).symm
  · simp only [mpz_hashset_add, h, if_false]
    split <;> simp [mpz_hashset_resize]

/-- Bucket count of the updated set after `mpz_hashset_add`: it doubles
exactly when the value is new and the load factor before the insertion
exceeds 0.75. -/
theorem mpz_hashset_add_bucket (s : MpzHashSet) (v : Nat) :
    ((mpz_hashset_add s v).2).bucket_count =
      if v ∉ s.values ∧ 4 * s.values.card > 3 * s.bucket_count then
        s.bucket_count * 2
      else s.bucket_count := by
  by_cases h : v ∈ s.values
  · simp [mpz_hashset_add, h]
  · simp only [mpz_hashset_add, h, if_false]
    by_cases hl : 4 * s.values.card > 3 * s.bucket_count <;>
      simp [hl, mpz_hashset_resize, h]

/-- First component of `mpz_hashset_add`: true exactly when the value was
absent. -/
theorem mpz_hashset_add_fst (s : MpzHashSet) (v : Nat) :
    (mpz_hashset_add s v).1 = (decide (v ∉ s.values)) := by
  by_cases h : v ∈ s.values <;> simp [mpz_hashset_add, h]

/-- Two `mpz_hashset_add` insertions commute (used to fold the additions of
`compute_and_add_sums_fast` over the snapshot, whose physical iteration
order the C code leaves unspecified). -/
theorem mpz_hashset_add_add_comm (s : MpzHashSet) (x y : Nat) :
    (mpz_hashset_add (mpz_hashset_add s x).2 y).2 =
      (mpz_hashset_add (mpz_hashset_add s y).2 x).2 := by
  ext z
  · simp [mpz_hashset_add_values]
    tauto
  · by_cases hxy : x = y
    · subst hxy; rfl
    · rw [mpz_hashset_add_bucket, mpz_hashset_add_bucket,
        mpz_hashset_add_bucket, mpz_hashset_add_bucket,
        mpz_hashset_add_values, mpz_hashset_add_values]
      by_cases hx : x ∈ s.values <;> by_cases hy : y ∈ s.values
      · simp [hx, hy]
      · simp [hx, hy, Finset.mem_insert]
      · simp [hx, hy, Finset.mem_insert, hxy]
      · have hxny : x ∉ insert y s.values := by
          simp only [Finset.mem_insert, not_or]
          exact ⟨hxy, hx⟩
        have hynx : y ∉ insert x s.values := by
          simp only [Finset.mem_insert, not_or]
          exact ⟨Ne.symm hxy, hy⟩
        simp only [hx, hy, hxny, hynx, not_false_eq_true, true_and,
          Finset.card_insert_of_not_mem]

/-- One step of the second pass of `compute_and_add_sums_fast`: add
`value + cs` to the accumulated hash set. -/
def addNewSum (value : Nat) (acc : MpzHashSet) (cs : Nat) : MpzHashSet :=
  (mpz_hashset_add acc (value + cs)).2

instance (value : Nat) : RightCommutative (addNewSum value) :=
  ⟨fun b a1 a2 => mpz_hashset_add_add_comm b (value + a1) (value + a2)⟩

/-- The collision test of the first pass of `compute_and_add_sums_fast`:
some current sum `cs` has `value + cs` already stored. -/
def fastPassCollision (s : MpzHashSet) (value : Nat) : Prop :=
  ∃ cs ∈ s.values, mpz_hashset_contains s (value + cs) = true

instance (s : MpzHashSet) (value : Nat) : Decidable (fastPassCollision s value) :=
  Finset.decidableExistsAndFinset

/-- `compute_and_add_sums_fast`.  Returns `(success, updated set, recorded
frame)`.  The C function first checks `value` itself, then snapshots the
current sums and checks `value + s` for every snapshot entry against the
untouched set; only when no collision is found does it insert `value` and
every `value + s`, recording each into the history frame.  (When `0` is a
stored sum the C buffer records `value` twice — once as `value` and once as
`value + 0`; as a set of recorded sums the frame is the same.) -/
def compute_and_add_sums_fast (s : MpzHashSet) (value : Nat) :
    Bool × MpzHashSet × Finset Nat :=
  if mpz_hashset_contains s value then
    (false, s, ∅)
  else if fastPassCollision s value then
    (false, s, ∅)
  else
    let current_sums := s.values
    let s1 := (mpz_hashset_add s value).2
    let s2 := Multiset.foldl (addNewSum value) s1 current_sums.val
    (true, s2, insert value (current_sums.image (value + ·)))

/-- Sum of the elements of `E` selected by the bits of `mask`
(`elements[i]` is added when bit `i` of the mask is set). -/
def maskSum (E : List Nat) (mask : Nat) : Nat :=
  ∑ i ∈ Finset.range E.length, if mask.testBit i then E.getD i 0 else 0

/-- Test A of `subset_sum_manager_has_collision_iterative`: some non-empty
subset of `E` (enumerated by bitmask) sums to `new_value`. -/
def iterTestA (E : List Nat) (new_value : Nat) : Prop :=
  ∃ mask ∈ Finset.Ico 1 (2 ^ E.length), maskSum E mask = new_value

instance (E : List Nat) (v : Nat) : Decidable (iterTestA E v) :=
  Finset.decidableExistsAndFinset

/-- Test B of `subset_sum_manager_has_collision_iterative`: `new_value` plus
the sum of a non-empty subset equals the sum of a disjoint non-empty
subset. -/
def iterTestB (E : List Nat) (new_value : Nat) : Prop :=
  ∃ mask1 ∈ Finset.Ico 1 (2 ^ E.length), ∃ mask2 ∈ Finset.Ico 1 (2 ^ E.length),
    mask1 &&& mask2 = 0 ∧ new_value + maskSum E mask1 = maskSum E mask2

instance (E : List Nat) (v : Nat) : Decidable (iterTestB E v) := by
  unfold iterTestB; infer_instance

/-- The `n ≤ 62` branch of `subset_sum_manager_has_collision_iterative`:
Test A in full, then Test B in full. -/
def hasCollisionBitmask (E : List Nat) (new_value : Nat) : Bool :=
  decide (iterTestA E new_value) || decide (iterTestB E new_value)

/-- The `n > 62` branch of `subset_sum_manager_has_collision_iterative`: the
code enumerates arbitrary-precision masks but only performs Test A and then
returns false — Test B is missing from this path (the source comment calls
it an abridged version). -/
def hasCollisionSlowPath (E : List Nat) (new_value : Nat) : Bool :=
  decide (iterTestA E new_value)

/-- `subset_sum_manager_has_collision_iterative`. -/
def subset_sum_manager_has_collision_iterative (m : SubsetSumManager) (new_value : Nat) :
    Bool :=
  let n := m.elements.length
  if n = 0 then false
  else if n ≤ 62 then hasCollisionBitmask m.elements new_value
  else hasCollisionSlowPath m.elements new_value

/-- `subset_sum_manager_add_element` (`try_push`).  In fast mode the C code
pushes a scratch history frame before the computation and pops it again when
a collision is found; the net effect on the history stack in the failure
case is none, so the failure branch returns the manager unchanged. -/
def subset_sum_manager_add_element (m : SubsetSumManager) (value : Nat) :
    Bool × SubsetSumManager :=
  match m.mtype with
  | ManagerType.Fast =>
    match compute_and_add_sums_fast m.sums_set value with
    | (false, _, _) => (false, m)
    | (true, s2, frame) =>
      (true, { m with elements := value :: m.elements,
                      sums_set := s2,
                      history := frame :: m.history })
  | ManagerType.Iterative =>
    if subset_sum_manager_has_collision_iterative m value then
      (false, m)
    else
      (true, { m with elements := value :: m.elements })

/-- `subset_sum_manager_remove_last` (`pop`).  Returns immediately when no
element is present.  In fast mode the top history frame is popped and each
recorded sum is removed from the sum set via `mpz_hashset_remove` (removing
every member of the frame leaves `values \ frame`; the bucket count is
untouched); when the history stack is empty `history_stack_pop` returns NULL
and only the element is popped. -/
def subset_sum_manager_remove_last (m : SubsetSumManager) : SubsetSumManager :=
  if m.elements.length = 0 then m
  else
    match m.mtype with
    | ManagerType.Fast =>
      match m.history with
      | [] => { m with elements := m.elements.tail }
      | frame :: rest =>
        { m with elements := m.elements.tail,
                 sums_set := { m.sums_set with values := m.sums_set.values \ frame },
                 history := rest }
    | ManagerType.Iterative => { m with elements := m.elements.tail }

/-- `subset_sum_manager_size`. -/
def subset_sum_manager_size (m : SubsetSumManager) : Nat :=
  m.elements.length

/-- `subset_sum_manager_get_elements`: copy of the element array in push
order (the stored list is in reverse push order). -/
def subset_sum_manager_get_elements (m : SubsetSumManager) : List Nat :=
  m.elements.reverse

-- ===========================================================================
-- Backtracking solver (backtrack_solver.c)
-- ===========================================================================

inductive SolutionStatus where
  | OPTIMAL
  | FEASIBLE
  | NO_SOLUTION
  | TIMEOUT
  | INTERRUPTED
deriving DecidableEq

/-- `compute_initial_bound`: `2^(n-1) + 1` for `n ≥ 1`, `1` for `n = 0`. -/
def compute_initial_bound (n : Nat) : Nat :=
  if n = 0 then 1 else 2 ^ (n - 1) + 1

/-- `SolverConfig`.  The stop flag is owned by the caller; in this
single-threaded embedding it is a constant boolean observable.
`log_interval_sec` only affects logging and is omitted. -/
structure SolverConfig where
  n : Nat
  initial_bound : Nat
  find_all_optimal : Bool
  first_only : Bool
  manager_type : ManagerType
  stop_flag : Bool
deriving DecidableEq

/-- Mutable state of `BacktrackSolver` (manager, best solution so far and the
stats the result record reports; wall-clock fields of `SearchStats` only
affect logging and are omitted). -/
@[ext]
structure SolverState where
  manager : SubsetSumManager
  best_max : Nat
  best_solution : List Nat
  has_solution : Bool
  all_optimal : List (List Nat)
  nodes_explored : Nat
  solutions_found : Nat
  current_depth : Nat
deriving DecidableEq

/-- `save_best_solution`: copy the manager's elements as the new best
solution, recompute `best_max` as their maximum, mark `has_solution`, count
the solution (the solution callback and logging have no state effect). -/
def save_best_solution (st : SolverState) : SolverState :=
  let sol := subset_sum_manager_get_elements st.manager
  { st with best_solution := sol,
            best_max := sol.foldl max 0,
            has_solution := true,
            solutions_found := st.solutions_found + 1 }

/-- `add_optimal_solution`: append a copy of the manager's elements to the
list of optimal solutions. -/
def add_optimal_solution (st : SolverState) : SolverState :=
  { st with all_optimal := st.all_optimal ++ [subset_sum_manager_get_elements st.manager] }

/-- The `depth == n` base case of `backtrack`: compare the maximum of the
current complete set with `best_max` and record it according to the mode. -/
def backtrackBase (cfg : SolverConfig) (st : SolverState) : SolverState :=
  let current_max := (subset_sum_manager_get_elements st.manager).foldl max 0
  if ¬ cfg.find_all_optimal then
    if current_max < st.best_max then save_best_solution st else st
  else
    if ¬ st.has_solution ∨ current_max < st.best_max then
      add_optimal_solution (save_best_solution { st with all_optimal := [] })
    else if current_max = st.best_max then
      let st1 := add_optimal_solution st
      { st1 with solutions_found := st1.solutions_found + 1 }
    else st

/-- The candidate enumeration loop of `backtrack` (`for(;;)` over
`candidate`): stop-flag check, dynamic upper bound (`best_max` once a
solution exists, `initial_bound` before), prune P2, try-push / recurse /
pop, `first_only` early exit.  `recur min_next st` is the recursive call
`backtrack(depth + 1, candidate + 1)`; `fuel` bounds the number of loop
iterations (`none` = ran out). -/
def candidateLoopF (cfg : SolverConfig)
    (recur : Nat → SolverState → Option SolverState) :
    Nat → Nat → Nat → SolverState → Option SolverState
  | 0, _, _, _ => none
  | fuel + 1, remaining, candidate, st =>
    if cfg.stop_flag then some st
    else if st.has_solution ∧ candidate ≥ st.best_max then some st
    else if ¬ st.has_solution ∧ candidate ≥ cfg.initial_bound then some st
    else if st.has_solution ∧ candidate + remaining ≥ st.best_max then some st
    else
      match subset_sum_manager_add_element st.manager candidate with
      | (false, m1) =>
        candidateLoopF cfg recur fuel remaining (candidate + 1) { st with manager := m1 }
      | (true, m1) =>
        match recur (candidate + 1) { st with manager := m1 } with
        | none => none
        | some st1 =>
          let st2 := { st1 with manager := subset_sum_manager_remove_last st1.manager }
          if cfg.first_only ∧ st2.has_solution then some st2
          else candidateLoopF cfg recur fuel remaining (candidate + 1) st2

/-- `backtrack`: the recursive search procedure.  Structured exactly as the C
function: stop-flag check, node accounting (the periodic progress callback
only logs), base case at `depth = n`, prune P1, then the candidate loop.
`fuel` bounds the number of calls; `none` means the fuel ran out (a run of
the C program that finishes corresponds to a sufficiently large fuel). -/
def backtrackF : Nat → SolverConfig → Nat → Nat → SolverState → Option SolverState
  | 0, _, _, _, _ => none
  | fuel + 1, cfg, depth, min_next, st =>
    if cfg.stop_flag then some st
    else
      let st := { st with nodes_explored := st.nodes_explored + 1, current_depth := depth }
      if depth = cfg.n then some (backtrackBase cfg st)
      else
        let remaining := cfg.n - depth - 1
        if st.has_solution ∧ min_next + remaining ≥ st.best_max then some st
        else candidateLoopF cfg (backtrackF fuel cfg (depth + 1)) fuel remaining min_next st

/-- `SolutionResult` (wall-clock fields omitted; `solution_set` in push
order). -/
structure SolutionResult where
  n : Nat
  max_value : Nat
  solution_set : List Nat
  status : SolutionStatus
  nodes_explored : Nat
deriving DecidableEq

/-- The result-population epilogue of `backtrack_solver_solve` (lines
377–393 of backtrack_solver.c). -/
def mkSolutionResult (cfg : SolverConfig) (st : SolverState) : SolutionResult :=
  { n := cfg.n,
    max_value := if st.has_solution then st.best_max else 0,
    solution_set := if st.has_solution then st.best_solution else [],
    status :=
      if st.has_solution then SolutionStatus.OPTIMAL
      else if cfg.stop_flag then SolutionStatus.INTERRUPTED
      else SolutionStatus.NO_SOLUTION,
    nodes_explored := st.nodes_explored }

/-- The configuration actually used by a solve: `backtrack_solver_create`
forces iterative mode when `n ≥ 25` was configured fast, and
`backtrack_solver_solve` replaces a zero configured bound by the default
bound. -/
def effectiveConfig (cfg0 : SolverConfig) : SolverConfig :=
  { cfg0 with
    manager_type :=
      if cfg0.n ≥ 25 ∧ cfg0.manager_type = ManagerType.Fast then ManagerType.Iterative
      else cfg0.manager_type,
    initial_bound :=
      if cfg0.initial_bound = 0 then compute_initial_bound cfg0.n else cfg0.initial_bound }

/-- Solver state at the start of a solve: fresh manager, no solution,
`best_max` initialised to the (effective) initial bound, zeroed stats. -/
def initialSolverState (cfg : SolverConfig) : SolverState :=
  { manager := subset_sum_manager_create cfg.manager_type,
    best_max := cfg.initial_bound,
    best_solution := [],
    has_solution := false,
    all_optimal := [],
    nodes_explored := 0,
    solutions_found := 0,
    current_depth := 0 }

/-- The search phase of `backtrack_solver_solve`: the `n = 1` special case
answers `{1}` directly (no `backtrack` call); otherwise `backtrack(0, 1)`
runs. -/
def solveRun (cfg : SolverConfig) (fuel : Nat) : Option SolverState :=
  let st0 := initialSolverState cfg
  if cfg.n = 1 then
    some { st0 with best_max := 1, best_solution := [1], has_solution := true }
  else
    backtrackF fuel cfg 0 1 st0

/-- `backtrack_solver_create` followed by `backtrack_solver_solve`.  Returns
the result record together with the final solver state, or `none` when the
fuel ran out before the search finished. -/
def backtrack_solver_solve (cfg0 : SolverConfig) (fuel : Nat) :
    Option (SolutionResult × SolverState) :=
  match solveRun (effectiveConfig cfg0) fuel with
  | none => none
  | some stF => some (mkSolutionResult (effectiveConfig cfg0) stF, stF)

-- ===========================================================================
-- Specification-side notions: subset sums and collisions of a sequence
-- ===========================================================================

/-- The set of sums of non-empty subsets of a sequence, in the incremental
form maintained by the fast mode: extending the sequence by `v` contributes
`v` itself and `v + s` for every previous sum `s`. -/
def subsetSums : List Nat → Finset Nat
  | [] => ∅
  | v :: E => insert v (subsetSums E ∪ (subsetSums E).image (v + ·))

/-- Sum of the subset of the sequence `E` selected by the index set `T`
(indices into the list; out-of-range indices contribute 0 and are excluded
by the `T ⊆ range E.length` side conditions below). -/
def idxSum (E : List Nat) (T : Finset Nat) : Nat :=
  ∑ i ∈ T, E.getD i 0

/-- Every non-empty subset of the sequence has a distinct sum: the map from
non-empty index subsets to sums is injective. -/
def CollFree (E : List Nat) : Prop :=
  ∀ T1 T2 : Finset Nat, T1 ⊆ Finset.range E.length → T2 ⊆ Finset.range E.length →
    T1.Nonempty → T2.Nonempty → idxSum E T1 = idxSum E T2 → T1 = T2

/-- The sequence contains two distinct non-empty subsets with equal sums. -/
def HasCollision (E : List Nat) : Prop :=
  ∃ T1 T2 : Finset Nat, T1 ⊆ Finset.range E.length ∧ T2 ⊆ Finset.range E.length ∧
    T1.Nonempty ∧ T2.Nonempty ∧ T1 ≠ T2 ∧ idxSum E T1 = idxSum E T2

theorem hasCollision_iff_not_collFree (E : List Nat) :
    HasCollision E ↔ ¬ CollFree E := by
  unfold HasCollision CollFree
  push_neg
  constructor
  · rintro ⟨T1, T2, h1, h2, n1, n2, hne, hsum⟩
    exact ⟨T1, T2, h1, h2, n1, n2, hsum, hne⟩
  · rintro ⟨T1, T2, h1, h2, n1, n2, hsum, hne⟩
    exact ⟨T1, T2, h1, h2, n1, n2, hne, hsum⟩

theorem shift_up_sum (v : Nat) (E : List Nat) (T : Finset Nat) :
    idxSum (v :: E) (T.image (· + 1)) = idxSum E T := by
  unfold idxSum
  rw [Finset.sum_image (by intro x _ y _ h; omega)]
  simp [List.getD_cons_succ]

theorem shift_down_up (T : Finset Nat) (h0 : 0 ∉ T) :
    (T.image (· - 1)).image (· + 1) = T := by
  ext x
  simp only [Finset.mem_image]
  constructor
  · rintro ⟨a, ⟨b, hb, hba⟩, hax⟩
    have hb0 : b ≠ 0 := fun h => h0 (h ▸ hb)
    have : x = b := by omega
    exact this ▸ hb
  · intro hx
    have hx0 : x ≠ 0 := fun h => h0 (h ▸ hx)
    exact ⟨x - 1, ⟨x, hx, rfl⟩, by omega⟩

theorem shift_down_sum (v : Nat) (E : List Nat) (T : Finset Nat) (h0 : 0 ∉ T) :
    idxSum (v :: E) T = idxSum E (T.image (· - 1)) := by
  conv_lhs => rw [← shift_down_up T h0]
  rw [shift_up_sum]

theorem shift_up_subset {T : Finset Nat} {n : Nat} (h : T ⊆ Finset.range n) :
    T.image (· + 1) ⊆ Finset.range (n + 1) := by
  intro x hx
  simp only [Finset.mem_image] at hx
  obtain ⟨a, ha, rfl⟩ := hx
  have := h ha
  simp only [Finset.mem_range] at this ⊢
  omega

theorem shift_down_subset {T : Finset Nat} {n : Nat}
    (h : T ⊆ Finset.range (n + 1)) (h0 : 0 ∉ T) :
    T.image (· - 1) ⊆ Finset.range n := by
  intro x hx
  simp only [Finset.mem_image] at hx
  obtain ⟨a, ha, rfl⟩ := hx
  have h1 := h ha
  have h2 : a ≠ 0 := fun hh => h0 (hh ▸ ha)
  simp only [Finset.mem_range] at h1 ⊢
  omega

theorem zero_not_mem_shift_up (T : Finset Nat) : 0 ∉ T.image (· + 1) := by
  simp

/-- Membership bridge: the incrementally maintained `subsetSums` contains
exactly the sums of non-empty index subsets. -/
theorem mem_subsetSums (E : List Nat) (x : Nat) :
    x ∈ subsetSums E ↔
      ∃ T : Finset Nat, T ⊆ Finset.range E.length ∧ T.Nonempty ∧ idxSum E T = x := by
  induction E generalizing x with
  | nil =>
    simp only [subsetSums, Finset.not_mem_empty, false_iff, not_exists]
    rintro T ⟨hT, hne, _⟩
    simp only [List.length_nil, Finset.range_zero, Finset.subset_empty] at hT
    exact Finset.not_nonempty_empty (hT ▸ hne)
  | cons v E ih =>
    simp only [subsetSums, Finset.mem_insert, Finset.mem_union, Finset.mem_image]
    constructor
    · rintro (rfl | hS | ⟨s, hs, rfl⟩)
      · refine ⟨{0}, ?_, Finset.singleton_nonempty 0, ?_⟩
        · intro i hi
          simp only [Finset.mem_singleton] at hi
          simp [hi]
        · simp [idxSum]
      · obtain ⟨T, hT, hne, hsum⟩ := (ih x).mp hS
        exact ⟨T.image (· + 1), shift_up_subset hT, hne.image _,
          by rw [shift_up_sum]; exact hsum⟩
      · obtain ⟨T, hT, hne, hsum⟩ := (ih s).mp hs
        refine ⟨insert 0 (T.image (· + 1)), ?_, Finset.insert_nonempty _ _, ?_⟩
        · intro i hi
          rcases Finset.mem_insert.mp hi with rfl | hi
          · simp
          · exact shift_up_subset hT hi
        · rw [idxSum, Finset.sum_insert (zero_not_mem_shift_up T)]
          have := shift_up_sum v E T
          rw [idxSum] at this
          rw [this, hsum]
          simp
    · rintro ⟨T, hT, hne, rfl⟩
      by_cases h0 : 0 ∈ T
      · have hT0 : T = insert 0 (T.erase 0) := (Finset.insert_erase h0).symm
        by_cases he : T.erase 0 = ∅
        · left
          rw [hT0, he]
          simp [idxSum]
        · right; right
          have hne' : (T.erase 0).Nonempty := Finset.nonempty_of_ne_empty he
          have h0' : 0 ∉ T.erase 0 := Finset.not_mem_erase 0 T
          have hsub : T.erase 0 ⊆ Finset.range (E.length + 1) :=
            (Finset.erase_subset 0 T).trans (by simpa using hT)
          refine ⟨idxSum E ((T.erase 0).image (· - 1)), ?_, ?_⟩
          · exact (ih _).mpr ⟨(T.erase 0).image (· - 1),
              shift_down_subset hsub h0', hne'.image _, rfl⟩
          · rw [← shift_down_sum v E _ h0']
            conv_rhs => rw [hT0]
            simp only [idxSum]
            rw [Finset.sum_insert (Finset.not_mem_erase 0 T)]
            simp
      · right; left
        refine (ih _).mpr ⟨T.image (· - 1), shift_down_subset (by simpa using hT) h0,
          hne.image _, ?_⟩
        rw [← shift_down_sum v E T h0]

/-- A non-empty subset of a sequence of positive values has positive sum. -/
theorem idxSum_pos {E : List Nat} (hpos : ∀ x ∈ E, 0 < x) {T : Finset Nat}
    (hT : T ⊆ Finset.range E.length) (hne : T.Nonempty) : 0 < idxSum E T := by
  obtain ⟨i, hi⟩ := hne
  have hilt : i < E.length := Finset.mem_range.mp (hT hi)
  have hmem : E.getD i 0 ∈ E := by
    rw [List.getD_eq_getElem E 0 hilt]
    exact List.getElem_mem hilt
  have h1 : 0 < E.getD i 0 := hpos _ hmem
  calc 0 < E.getD i 0 := h1
    _ ≤ idxSum E T := by
      unfold idxSum
      exact Finset.single_le_sum (f := fun i => E.getD i 0) (fun j _ => Nat.zero_le _) hi

theorem idxSum_empty (E : List Nat) : idxSum E ∅ = 0 := by
  simp [idxSum]

theorem idxSum_cons_of_zero_mem (v : Nat) (E : List Nat) (T : Finset Nat) (h0 : 0 ∈ T) :
    idxSum (v :: E) T = v + idxSum E ((T.erase 0).image (· - 1)) := by
  conv_lhs => rw [← Finset.insert_erase h0]
  simp only [idxSum]
  rw [Finset.sum_insert (Finset.not_mem_erase 0 T)]
  have h := shift_down_sum v E (T.erase 0) (Finset.not_mem_erase 0 T)
  simp only [idxSum] at h
  rw [h]
  simp

/-- The check performed by a fast-mode push: the new value is not a stored
sum and adding it to any stored sum does not give a stored sum. -/
def pushable (E : List Nat) (v : Nat) : Prop :=
  v ∉ subsetSums E ∧ ∀ s ∈ subsetSums E, v + s ∉ subsetSums E

/-- Extending a collision-free sequence of positive values by a positive
value that passes the push check keeps it collision-free. -/
theorem collFree_cons {E : List Nat} {v : Nat} (hcf : CollFree E)
    (hpos : ∀ x ∈ E, 0 < x) (hp : pushable E v) :
    CollFree (v :: E) := by
  obtain ⟨hp1, hp2⟩ := hp
  have mix : ∀ T1 T2 : Finset Nat, T1 ⊆ Finset.range (E.length + 1) →
      T2 ⊆ Finset.range (E.length + 1) → T2.Nonempty →
      0 ∈ T1 → 0 ∉ T2 → idxSum (v :: E) T1 = idxSum (v :: E) T2 → False := by
    intro T1 T2 hs1 hs2 hn2 h01 h02 hsum
    rw [idxSum_cons_of_zero_mem v E T1 h01, shift_down_sum v E T2 h02] at hsum
    have hmem2 : idxSum E (T2.image (· - 1)) ∈ subsetSums E :=
      (mem_subsetSums E _).mpr ⟨T2.image (· - 1), shift_down_subset hs2 h02,
        hn2.image _, rfl⟩
    by_cases he : T1.erase 0 = ∅
    · rw [he] at hsum
      simp only [Finset.image_empty, idxSum, Finset.sum_empty, Nat.add_zero] at hsum
      exact hp1 (hsum ▸ hmem2)
    · have hne' : (T1.erase 0).Nonempty := Finset.nonempty_of_ne_empty he
      have hsub : T1.erase 0 ⊆ Finset.range (E.length + 1) :=
        (Finset.erase_subset 0 T1).trans hs1
      have hmem1 : idxSum E ((T1.erase 0).image (· - 1)) ∈ subsetSums E :=
        (mem_subsetSums E _).mpr ⟨(T1.erase 0).image (· - 1),
          shift_down_subset hsub (Finset.not_mem_erase 0 T1), hne'.image _, rfl⟩
      exact hp2 _ hmem1 (hsum ▸ hmem2)
  intro T1 T2 hs1 hs2 hn1 hn2 hsum
  have hs1' : T1 ⊆ Finset.range (E.length + 1) := by simpa using hs1
  have hs2' : T2 ⊆ Finset.range (E.length + 1) := by simpa using hs2
  by_cases c1 : 0 ∈ T1 <;> by_cases c2 : 0 ∈ T2
  · rw [idxSum_cons_of_zero_mem v E T1 c1, idxSum_cons_of_zero_mem v E T2 c2] at hsum
    have hsum' : idxSum E ((T1.erase 0).image (· - 1)) =
        idxSum E ((T2.erase 0).image (· - 1)) := by omega
    by_cases e1 : T1.erase 0 = ∅ <;> by_cases e2 : T2.erase 0 = ∅
    · have t1 : T1 = {0} := by
        rw [← Finset.insert_erase c1, e1]; rfl
      have t2 : T2 = {0} := by
        rw [← Finset.insert_erase c2, e2]; rfl
      rw [t1, t2]
    · exfalso
      have hne2 : (T2.erase 0).Nonempty := Finset.nonempty_of_ne_empty e2
      have hsub2 : T2.erase 0 ⊆ Finset.range (E.length + 1) :=
        (Finset.erase_subset 0 T2).trans hs2'
      have hpos2 : 0 < idxSum E ((T2.erase 0).image (· - 1)) :=
        idxSum_pos hpos (shift_down_subset hsub2 (Finset.not_mem_erase 0 T2)) (hne2.image _)
      rw [e1, Finset.image_empty, idxSum_empty] at hsum'
      omega
    · exfalso
      have hne1 : (T1.erase 0).Nonempty := Finset.nonempty_of_ne_empty e1
      have hsub1 : T1.erase 0 ⊆ Finset.range (E.length + 1) :=
        (Finset.erase_subset 0 T1).trans hs1'
      have hpos1 : 0 < idxSum E ((T1.erase 0).image (· - 1)) :=
        idxSum_pos hpos (shift_down_subset hsub1 (Finset.not_mem_erase 0 T1)) (hne1.image _)
      rw [e2, Finset.image_empty, idxSum_empty] at hsum'
      omega
    · have hne1 : (T1.erase 0).Nonempty := Finset.nonempty_of_ne_empty e1
      have hne2 : (T2.erase 0).Nonempty := Finset.nonempty_of_ne_empty e2
      have hsub1 : T1.erase 0 ⊆ Finset.range (E.length + 1) :=
        (Finset.erase_subset 0 T1).trans hs1'
      have hsub2 : T2.erase 0 ⊆ Finset.range (E.length + 1) :=
        (Finset.erase_subset 0 T2).trans hs2'
      have hU : (T1.erase 0).image (· - 1) = (T2.erase 0).image (· - 1) :=
        hcf _ _ (shift_down_subset hsub1 (Finset.not_mem_erase 0 T1))
          (shift_down_subset hsub2 (Finset.not_mem_erase 0 T2))
          (hne1.image _) (hne2.image _) hsum'
      have hE : T1.erase 0 = T2.erase 0 := by
        rw [← shift_down_up (T1.erase 0) (Finset.not_mem_erase 0 T1),
          ← shift_down_up (T2.erase 0) (Finset.not_mem_erase 0 T2), hU]
      rw [← Finset.insert_erase c1, ← Finset.insert_erase c2, hE]
  · exact absurd hsum (fun h => mix T1 T2 hs1' hs2' hn2 c1 c2 h)
  · exact absurd hsum.symm (fun h => mix T2 T1 hs2' hs1' hn1 c2 c1 h)
  · rw [shift_down_sum v E T1 c1, shift_down_sum v E T2 c2] at hsum
    have hU : T1.image (· - 1) = T2.image (· - 1) :=
      hcf _ _ (shift_down_subset hs1' c1) (shift_down_subset hs2' c2)
        (hn1.image _) (hn2.image _) hsum
    rw [← shift_down_up T1 c1, ← shift_down_up T2 c2, hU]

/-- When the new value hits a stored sum (directly or shifted by a stored
sum), the extended sequence has two distinct non-empty subsets with equal
sums. -/
theorem hasCollision_cons_of_hit {E : List Nat} {v : Nat}
    (h : v ∈ subsetSums E ∨ ∃ s ∈ subsetSums E, v + s ∈ subsetSums E) :
    HasCollision (v :: E) := by
  rcases h with hv | ⟨s, hs, hvs⟩
  · obtain ⟨T, hT, hne, hsum⟩ := (mem_subsetSums E v).mp hv
    refine ⟨{0}, T.image (· + 1), ?_, ?_, Finset.singleton_nonempty 0, hne.image _, ?_, ?_⟩
    · intro i hi
      simp only [Finset.mem_singleton] at hi
      simp [hi]
    · simpa using shift_up_subset hT
    · intro heq
      exact zero_not_mem_shift_up T (heq ▸ Finset.mem_singleton_self 0)
    · rw [shift_up_sum, hsum]
      simp [idxSum]
  · obtain ⟨T1, hT1, hne1, hsum1⟩ := (mem_subsetSums E s).mp hs
    obtain ⟨T2, hT2, hne2, hsum2⟩ := (mem_subsetSums E (v + s)).mp hvs
    refine ⟨insert 0 (T1.image (· + 1)), T2.image (· + 1), ?_, ?_,
      Finset.insert_nonempty _ _, hne2.image _, ?_, ?_⟩
    · intro i hi
      rcases Finset.mem_insert.mp hi with rfl | hi
      · simp
      · simpa using shift_up_subset hT1 hi
    · simpa using shift_up_subset hT2
    · intro heq
      exact zero_not_mem_shift_up T2 (heq ▸ Finset.mem_insert_self 0 _)
    · simp only [idxSum] at hsum1 hsum2 ⊢
      rw [Finset.sum_insert (zero_not_mem_shift_up T1)]
      have h1 := shift_up_sum v E T1
      have h2 := shift_up_sum v E T2
      simp only [idxSum] at h1 h2
      rw [h1, h2, hsum1, hsum2]
      simp

/-- A collision-free sequence realises all `2^n − 1` non-empty subset sums
distinctly. -/
theorem card_subsetSums_of_collFree {E : List Nat} (h : CollFree E) :
    (subsetSums E).card = 2 ^ E.length - 1 := by
  have himg : subsetSums E =
      ((Finset.range E.length).powerset.filter (fun T => T.Nonempty)).image (idxSum E) := by
    ext x
    simp only [mem_subsetSums, Finset.mem_image, Finset.mem_filter, Finset.mem_powerset]
    constructor
    · rintro ⟨T, hT, hne, hsum⟩
      exact ⟨T, ⟨hT, hne⟩, hsum⟩
    · rintro ⟨T, ⟨hT, hne⟩, hsum⟩
      exact ⟨T, hT, hne, hsum⟩
  have hinj : Set.InjOn (idxSum E)
      ((Finset.range E.length).powerset.filter (fun T => T.Nonempty)) := by
    intro T1 h1 T2 h2 hsum
    simp only [Finset.coe_filter, Set.mem_setOf_eq, Finset.mem_powerset] at h1 h2
    exact h T1 T2 h1.1 h2.1 h1.2 h2.2 hsum
  have hfe : (Finset.range E.length).powerset.filter (fun T => T.Nonempty) =
      (Finset.range E.length).powerset.erase ∅ := by
    ext T
    simp [Finset.mem_erase, Finset.nonempty_iff_ne_empty, and_comm]
  rw [himg, Finset.card_image_of_injOn hinj, hfe,
    Finset.card_erase_of_mem (Finset.empty_mem_powerset _),
    Finset.card_powerset, Finset.card_range]

/-- Each successive element of the sequence passed the fast-mode push check
when it was pushed. -/
def goodSeq : List Nat → Prop
  | [] => True
  | v :: E => goodSeq E ∧ pushable E v

theorem collFree_nil : CollFree [] := by
  intro T1 T2 h1 _ hn1 _ _
  exfalso
  simp only [List.length_nil, Finset.range_zero, Finset.subset_empty] at h1
  exact Finset.not_nonempty_empty (h1 ▸ hn1)

/-- A sequence of positive values each of which passed the push check is
collision-free. -/
theorem goodSeq_collFree : ∀ {E : List Nat}, goodSeq E → (∀ x ∈ E, 0 < x) → CollFree E
  | [], _, _ => collFree_nil
  | v :: E, ⟨hg, hp⟩, hpos =>
    collFree_cons (goodSeq_collFree hg (fun x hx => hpos x (List.mem_cons_of_mem v hx)))
      (fun x hx => hpos x (List.mem_cons_of_mem v hx)) hp

-- ===========================================================================
-- Characterisation of the manager operations
-- ===========================================================================

theorem foldl_addNewSum_values (value : Nat) (M : Multiset Nat) (s0 : MpzHashSet) :
    (Multiset.foldl (addNewSum value) s0 M).values
      = s0.values ∪ (M.map (value + ·)).toFinset := by
  induction M using Multiset.induction_on generalizing s0 with
  | empty => simp
  | cons a M ih =>
    rw [Multiset.foldl_cons, ih]
    have hstep : (addNewSum value s0 a).values = insert (value + a) s0.values :=
      mpz_hashset_add_values s0 (value + a)
    rw [hstep, Multiset.map_cons, Multiset.toFinset_cons]
    ext x
    simp only [Finset.mem_union, Finset.mem_insert]
    tauto

/-- The failure condition of `compute_and_add_sums_fast`. -/
theorem compute_fast_fail_iff (s : MpzHashSet) (value : Nat) :
    (compute_and_add_sums_fast s value).1 = false ↔
      (value ∈ s.values ∨ ∃ cs ∈ s.values, value + cs ∈ s.values) := by
  unfold compute_and_add_sums_fast
  by_cases h1 : mpz_hashset_contains s value
  · simp only [h1, if_true]
    simp only [mpz_hashset_contains, decide_eq_true_eq] at h1
    simp [h1]
  · simp only [h1, if_false]
    by_cases h2 : fastPassCollision s value
    · simp only [h2, if_true]
      simp only [fastPassCollision, mpz_hashset_contains, decide_eq_true_eq] at h2
      simp [h2]
    · simp only [h2, if_false]
      simp only [fastPassCollision, mpz_hashset_contains, decide_eq_true_eq] at h2
      simp only [mpz_hashset_contains, decide_eq_true_eq] at h1
      simp [h1, h2]

/-- On failure the whole result of `compute_and_add_sums_fast` is
`(false, s, ∅)`: nothing is mutated. -/
theorem compute_fast_fail_eq (s : MpzHashSet) (value : Nat)
    (h : (compute_and_add_sums_fast s value).1 = false) :
    compute_and_add_sums_fast s value = (false, s, ∅) := by
  unfold compute_and_add_sums_fast at h ⊢
  by_cases h1 : mpz_hashset_contains s value
  · simp [h1]
  · simp only [h1, if_false] at h ⊢
    by_cases h2 : fastPassCollision s value
    · simp [h2]
    · simp [h2] at h

/-- On success `compute_and_add_sums_fast` evaluates to the tuple built in
its final branch. -/
theorem compute_fast_success_eq (s : MpzHashSet) (value : Nat)
    (h1 : value ∉ s.values) (h2 : ∀ cs ∈ s.values, value + cs ∉ s.values) :
    compute_and_add_sums_fast s value =
      (true, Multiset.foldl (addNewSum value) (mpz_hashset_add s value).2 s.values.val,
        insert value (s.values.image (value + ·))) := by
  unfold compute_and_add_sums_fast
  rw [if_neg (by simp [mpz_hashset_contains, h1]),
    if_neg (by
      simp only [fastPassCollision, mpz_hashset_contains, decide_eq_true_eq]
      push_neg
      exact h2)]

/-- On success `compute_and_add_sums_fast` performed the checks and added
exactly the new sums `{value} ∪ (value + S)`; the recorded frame is that
same set. -/
theorem compute_fast_success (s : MpzHashSet) (value : Nat)
    (h : (compute_and_add_sums_fast s value).1 = true) :
    value ∉ s.values ∧ (∀ cs ∈ s.values, value + cs ∉ s.values) ∧
    (compute_and_add_sums_fast s value).2.1.values
      = insert value (s.values ∪ s.values.image (value + ·)) ∧
    (compute_and_add_sums_fast s value).2.2
      = insert value (s.values.image (value + ·)) := by
  have hfail := compute_fast_fail_iff s value
  have hcond : ¬ (value ∈ s.values ∨ ∃ cs ∈ s.values, value + cs ∈ s.values) := by
    intro hc
    rw [← hfail] at hc
    rw [hc] at h
    exact Bool.false_ne_true h
  push_neg at hcond
  obtain ⟨hv, hcs⟩ := hcond
  refine ⟨hv, hcs, ?_, ?_⟩
  · rw [compute_fast_success_eq s value hv hcs]
    show (Multiset.foldl (addNewSum value) (mpz_hashset_add s value).2 s.values.val).values = _
    rw [foldl_addNewSum_values, mpz_hashset_add_values]
    ext x
    simp only [Finset.mem_union, Finset.mem_insert, Multiset.mem_toFinset,
      Multiset.mem_map, Finset.mem_image, Finset.mem_val]
    tauto
  · rw [compute_fast_success_eq s value hv hcs]

/-- `subset_sum_manager_add_element` never changes the manager type. -/
theorem add_element_mtype (m : SubsetSumManager) (v : Nat) :
    ((subset_sum_manager_add_element m v).2).mtype = m.mtype := by
  unfold subset_sum_manager_add_element
  cases htype : m.mtype with
  | Fast =>
    cases hc : compute_and_add_sums_fast m.sums_set v with
    | mk b rest =>
      cases b <;> simp [htype]
  | Iterative =>
    by_cases h : subset_sum_manager_has_collision_iterative m v <;> simp [h, htype]

/-- A failing `try_push` returns the manager completely unchanged. -/
theorem add_element_fail_eq (m : SubsetSumManager) (v : Nat)
    (h : (subset_sum_manager_add_element m v).1 = false) :
    subset_sum_manager_add_element m v = (false, m) := by
  unfold subset_sum_manager_add_element at h ⊢
  cases htype : m.mtype with
  | Fast =>
    simp only [htype] at h ⊢
    cases hc : compute_and_add_sums_fast m.sums_set v with
    | mk b rest =>
      cases b
      · simp
      · rw [hc] at h
        simp at h
  | Iterative =>
    simp only [htype] at h ⊢
    by_cases hi : subset_sum_manager_has_collision_iterative m v
    · simp [hi]
    · simp [hi] at h

/-- A successful fast-mode `try_push v` prepends `v` to the elements, adds
exactly the new sums to the sum set, and pushes the corresponding history
frame. -/
theorem add_element_fast_success (m : SubsetSumManager) (v : Nat)
    (htype : m.mtype = ManagerType.Fast)
    (h : (subset_sum_manager_add_element m v).1 = true) :
    v ∉ m.sums_set.values ∧
    (∀ cs ∈ m.sums_set.values, v + cs ∉ m.sums_set.values) ∧
    ((subset_sum_manager_add_element m v).2).elements = v :: m.elements ∧
    ((subset_sum_manager_add_element m v).2).sums_set.values
      = insert v (m.sums_set.values ∪ m.sums_set.values.image (v + ·)) ∧
    ((subset_sum_manager_add_element m v).2).history
      = insert v (m.sums_set.values.image (v + ·)) :: m.history := by
  unfold subset_sum_manager_add_element at h ⊢
  rw [htype] at h ⊢
  cases hc : compute_and_add_sums_fast m.sums_set v with
  | mk b rest =>
    obtain ⟨s2, frame⟩ := rest
    cases b
    · rw [hc] at h
      simp at h
    · have hsucc := compute_fast_success m.sums_set v (by rw [hc])
      rw [hc] at hsucc
      obtain ⟨h1, h2, h3, h4⟩ := hsucc
      have h4' : frame = insert v (m.sums_set.values.image (v + ·)) := h4
      exact ⟨h1, h2, rfl, h3, by rw [h4']⟩

theorem add_element_elements (m : SubsetSumManager) (v : Nat) :
    ((subset_sum_manager_add_element m v).2).elements =
      (if (subset_sum_manager_add_element m v).1 then v :: m.elements else m.elements) := by
  cases hb : (subset_sum_manager_add_element m v).1 with
  | false =>
    rw [add_element_fail_eq m v hb]
    simp
  | true =>
    simp only [if_true]
    unfold subset_sum_manager_add_element at hb ⊢
    cases htype : m.mtype with
    | Fast =>
      rw [htype] at hb
      cases hc : compute_and_add_sums_fast m.sums_set v with
      | mk b rest =>
        obtain ⟨s2, frame⟩ := rest
        cases b
        · rw [hc] at hb
          simp at hb
        · rfl
    | Iterative =>
      rw [htype] at hb
      by_cases hi : subset_sum_manager_has_collision_iterative m v
      · simp [hi] at hb
      · simp [hi]

theorem remove_last_mtype (m : SubsetSumManager) :
    (subset_sum_manager_remove_last m).mtype = m.mtype := by
  unfold subset_sum_manager_remove_last
  by_cases h : m.elements.length = 0
  · simp [h]
  · simp only [h, if_false]
    cases m.mtype
    · cases m.history <;> simp
    · simp

theorem remove_last_elements (m : SubsetSumManager) :
    (subset_sum_manager_remove_last m).elements = m.elements.tail := by
  unfold subset_sum_manager_remove_last
  by_cases h : m.elements.length = 0
  · simp only [h, if_true]
    rw [List.length_eq_zero] at h
    rw [h]
    rfl
  · simp only [h, if_false]
    cases m.mtype
    · cases m.history <;> simp
    · simp

theorem reset_mtype (m : SubsetSumManager) :
    (subset_sum_manager_reset m).mtype = m.mtype := by
  unfold subset_sum_manager_reset
  by_cases h : m.mtype = ManagerType.Fast <;> simp [h]

-- ===========================================================================
-- Reachable manager states and their invariant
-- ===========================================================================

/-- States reachable through the public manager interface. -/
inductive Reached : SubsetSumManager → Prop where
  | create (t : ManagerType) : Reached (subset_sum_manager_create t)
  | add (m : SubsetSumManager) (v : Nat) : Reached m →
      Reached ((subset_sum_manager_add_element m v).2)
  | remove (m : SubsetSumManager) : Reached m →
      Reached (subset_sum_manager_remove_last m)
  | reset (m : SubsetSumManager) : Reached m →
      Reached (subset_sum_manager_reset m)

/-- States reachable when every pushed value is positive (the regime the
spec describes: sets of positive integers; the search pushes candidates
starting from 1). -/
inductive PosReached : SubsetSumManager → Prop where
  | create (t : ManagerType) : PosReached (subset_sum_manager_create t)
  | add (m : SubsetSumManager) (v : Nat) (hv : 0 < v) : PosReached m →
      PosReached ((subset_sum_manager_add_element m v).2)
  | remove (m : SubsetSumManager) : PosReached m →
      PosReached (subset_sum_manager_remove_last m)
  | reset (m : SubsetSumManager) : PosReached m →
      PosReached (subset_sum_manager_reset m)

theorem posReached_reached {m : SubsetSumManager} (h : PosReached m) : Reached m := by
  induction h with
  | create t => exact Reached.create t
  | add m v _ _ ih => exact Reached.add m v ih
  | remove m _ ih => exact Reached.remove m ih
  | reset m _ ih => exact Reached.reset m ih

/-- The history stack matches the element sequence: one frame per element,
each frame holding exactly the sums its push introduced. -/
def HistOK : List Nat → List (Finset Nat) → Prop
  | [], [] => True
  | v :: E, f :: H => f = insert v ((subsetSums E).image (v + ·)) ∧ HistOK E H
  | _, _ => False

/-- Invariant of reachable fast-mode managers: the stored sums are exactly
the non-empty subset sums of the elements, every element passed the push
check, and the history stack matches. -/
def FastInv (m : SubsetSumManager) : Prop :=
  m.sums_set.values = subsetSums m.elements ∧ goodSeq m.elements ∧
    HistOK m.elements m.history

theorem reached_fastInv {m : SubsetSumManager} (h : Reached m)
    (ht : m.mtype = ManagerType.Fast) : FastInv m := by
  induction h with
  | create t =>
    simp [FastInv, subset_sum_manager_create, mpz_hashset_create, subsetSums,
      goodSeq, HistOK]
  | add m v hm ih =>
    have htm : m.mtype = ManagerType.Fast := by
      rw [← add_element_mtype m v]
      exact ht
    obtain ⟨hS, hG, hH⟩ := ih htm
    cases hb : (subset_sum_manager_add_element m v).1 with
    | false =>
      rw [add_element_fail_eq m v hb]
      exact ⟨hS, hG, hH⟩
    | true =>
      obtain ⟨h1, h2, hel, hval, hhist⟩ := add_element_fast_success m v htm hb
      refine ⟨?_, ?_, ?_⟩
      · rw [hval, hel, hS]
        rfl
      · rw [hel]
        refine ⟨hG, ?_, ?_⟩
        · rw [← hS]; exact h1
        · intro s hs
          rw [← hS] at hs ⊢
          exact h2 s hs
      · rw [hel, hhist, hS]
        exact ⟨rfl, hH⟩
  | remove m hm ih =>
    have htm : m.mtype = ManagerType.Fast := by
      rw [← remove_last_mtype m]
      exact ht
    obtain ⟨hS, hG, hH⟩ := ih htm
    cases hE : m.elements with
    | nil =>
      have : subset_sum_manager_remove_last m = m := by
        unfold subset_sum_manager_remove_last
        simp [hE]
      rw [this]
      exact ⟨hS, hG, hH⟩
    | cons v E =>
      rw [hE] at hS hG hH
      obtain ⟨hGE, hp⟩ := hG
      cases hHs : m.history with
      | nil =>
        rw [hHs] at hH
        exact absurd hH (by simp [HistOK])
      | cons f H =>
        rw [hHs] at hH
        obtain ⟨hf, hHE⟩ := hH
        have hrm : subset_sum_manager_remove_last m =
            { m with elements := m.elements.tail,
                     sums_set := { m.sums_set with values := m.sums_set.values \ f },
                     history := H } := by
          unfold subset_sum_manager_remove_last
          rw [hE, hHs, htm]
          simp
        rw [hrm]
        refine ⟨?_, ?_, ?_⟩
        · show m.sums_set.values \ f = subsetSums m.elements.tail
          rw [hE, hS, hf]
          show subsetSums (v :: E) \ _ = subsetSums E
          obtain ⟨hp1, hp2⟩ := hp
          ext x
          simp only [subsetSums, Finset.mem_sdiff, Finset.mem_insert,
            Finset.mem_union, Finset.mem_image]
          constructor
          · rintro ⟨hin, hnot⟩
            push_neg at hnot
            obtain ⟨hne, hnim⟩ := hnot
            rcases hin with rfl | hin | ⟨s, hs, rfl⟩
            · exact absurd rfl hne
            · exact hin
            · exact absurd rfl (hnim s hs)
          · intro hx
            refine ⟨Or.inr (Or.inl hx), ?_⟩
            push_neg
            refine ⟨?_, ?_⟩
            · rintro rfl
              exact hp1 hx
            · intro s hs heq
              rw [← heq] at hx
              exact hp2 s hs hx
        · rw [hE]
          exact hGE
        · rw [hE]
          exact hHE
  | reset m hm ih =>
    have htm : m.mtype = ManagerType.Fast := by
      rw [← reset_mtype m]
      exact ht
    unfold subset_sum_manager_reset
    rw [htm]
    simp [FastInv, mpz_hashset_clear, subsetSums, goodSeq, HistOK]

/-- Every element of a positively-reached manager is positive. -/
theorem posReached_pos {m : SubsetSumManager} (h : PosReached m) :
    ∀ x ∈ m.elements, 0 < x := by
  induction h with
  | create t =>
    intro x hx
    exact absurd hx (List.not_mem_nil x)
  | add m v hv hm ih =>
    intro x hx
    rw [add_element_elements] at hx
    by_cases hb : (subset_sum_manager_add_element m v).1
    · rw [if_pos hb] at hx
      rcases List.mem_cons.mp hx with rfl | hx
      · exact hv
      · exact ih x hx
    · rw [if_neg hb] at hx
      exact ih x hx
  | remove m hm ih =>
    intro x hx
    rw [remove_last_elements] at hx
    exact ih x (List.mem_of_mem_tail hx)
  | reset m hm ih =>
    intro x hx
    unfold subset_sum_manager_reset at hx
    by_cases hf : m.mtype = ManagerType.Fast
    · rw [if_pos hf] at hx
      exact absurd hx (List.not_mem_nil x)
    · rw [if_neg hf] at hx
      exact absurd hx (List.not_mem_nil x)

/-- The element sequence of a positively-reached fast-mode manager is
collision-free. -/
theorem posReached_collFree {m : SubsetSumManager} (h : PosReached m)
    (ht : m.mtype = ManagerType.Fast) : CollFree m.elements :=
  goodSeq_collFree (reached_fastInv (posReached_reached h) ht).2.1 (posReached_pos h)

/-- Removing the recorded frame from the updated sum set restores the old
sum set exactly (the new sums were checked to be disjoint from it). -/
theorem new_sums_sdiff (S : Finset Nat) (v : Nat) (h1 : v ∉ S)
    (h2 : ∀ s ∈ S, v + s ∉ S) :
    (insert v (S ∪ S.image (v + ·))) \ (insert v (S.image (v + ·))) = S := by
  ext x
  simp only [Finset.mem_sdiff, Finset.mem_insert, Finset.mem_union, Finset.mem_image]
  constructor
  · rintro ⟨hin, hnot⟩
    push_neg at hnot
    obtain ⟨hne, hnim⟩ := hnot
    rcases hin with rfl | hin | ⟨s, hs, rfl⟩
    · exact absurd rfl hne
    · exact hin
    · exact absurd rfl (hnim s hs)
  · intro hx
    refine ⟨Or.inr (Or.inl hx), ?_⟩
    push_neg
    refine ⟨?_, ?_⟩
    · rintro rfl
      exact h1 hx
    · intro s hs heq
      rw [← heq] at hx
      exact h2 s hs hx

/-- In fast mode `try_push` answers exactly as `compute_and_add_sums_fast`. -/
theorem add_element_fast_fst (m : SubsetSumManager) (v : Nat)
    (ht : m.mtype = ManagerType.Fast) :
    (subset_sum_manager_add_element m v).1 = (compute_and_add_sums_fast m.sums_set v).1 := by
  unfold subset_sum_manager_add_element
  rw [ht]
  cases hc : compute_and_add_sums_fast m.sums_set v with
  | mk b rest =>
    obtain ⟨s2, frame⟩ := rest
    cases b <;> simp

-- ===========================================================================
-- Claims
-- ===========================================================================

/-- C7: the default initial bound, used by `backtrack_solver_solve` when the
configured bound is zero, is `2^(n-1) + 1` for every `n ≥ 1` and `1` for
`n = 0`. -/
theorem C7_default_bound (n : Nat) (h : 1 ≤ n) :
    compute_initial_bound n = 2 ^ (n - 1) + 1 ∧ compute_initial_bound 0 = 1 := by
  constructor
  · unfold compute_initial_bound
    rw [if_neg (by omega)]
  · rfl

theorem C7_default_bound_witness :
    1 ≤ 3 ∧ (compute_initial_bound 3 = 2 ^ (3 - 1) + 1 ∧ compute_initial_bound 0 = 1) :=
  ⟨by decide, C7_default_bound 3 (by decide)⟩

/-- C8: with the default configuration (`n = 1`, configured bound 0, stop
flag unset), the solver returns the set `{1}` with maximum 1 and status
OPTIMAL, exploring 0 nodes — the `n = 1` special case answers before any
`backtrack` call, so fuel 0 already suffices. -/
theorem C8_n1_scenario :
    ∃ st, backtrack_solver_solve
        { n := 1, initial_bound := 0, find_all_optimal := false,
          first_only := false, manager_type := ManagerType.Fast, stop_flag := false } 0 =
      some ({ n := 1, max_value := 1, solution_set := [1],
              status := SolutionStatus.OPTIMAL, nodes_explored := 0 }, st) :=
  ⟨_, rfl⟩

/-- C10: `pop` on a manager whose element sequence is empty returns the
manager unchanged in every mode — the behaviour the spec leaves undefined is
a total no-op. -/
theorem C10_pop_empty (m : SubsetSumManager) (h : m.elements = []) :
    subset_sum_manager_remove_last m = m := by
  unfold subset_sum_manager_remove_last
  rw [h]
  simp

theorem C10_pop_empty_witness :
    (subset_sum_manager_create ManagerType.Iterative).elements = [] ∧
    subset_sum_manager_remove_last (subset_sum_manager_create ManagerType.Iterative) =
      subset_sum_manager_create ManagerType.Iterative :=
  ⟨rfl, C10_pop_empty _ rfl⟩

/-- C3: `try_push` is atomic.  A failing call returns the manager bit-for-bit
unchanged and an immediately repeated call with the same value fails again
with no side effects; a successful fast-mode call appends exactly one
element and adds exactly the new sums to the sum set. -/
theorem C3_atomicity (m : SubsetSumManager) (v : Nat) :
    ((subset_sum_manager_add_element m v).1 = false →
      subset_sum_manager_add_element m v = (false, m) ∧
      subset_sum_manager_add_element ((subset_sum_manager_add_element m v).2) v = (false, m)) ∧
    (m.mtype = ManagerType.Fast → (subset_sum_manager_add_element m v).1 = true →
      ((subset_sum_manager_add_element m v).2).elements = v :: m.elements ∧
      ((subset_sum_manager_add_element m v).2).sums_set.values
        = insert v (m.sums_set.values ∪ m.sums_set.values.image (v + ·))) := by
  constructor
  · intro hb
    have h1 := add_element_fail_eq m v hb
    refine ⟨h1, ?_⟩
    have h2 : (subset_sum_manager_add_element m v).2 = m := by rw [h1]
    rw [h2]
    exact h1
  · intro ht hb
    obtain ⟨_, _, hel, hval, _⟩ := add_element_fast_success m v ht hb
    exact ⟨hel, hval⟩

def managerAfterOne : SubsetSumManager :=
  (subset_sum_manager_add_element (subset_sum_manager_create ManagerType.Fast) 1).2

theorem C3_atomicity_witness :
    (subset_sum_manager_add_element managerAfterOne 1 = (false, managerAfterOne) ∧
      subset_sum_manager_add_element
        ((subset_sum_manager_add_element managerAfterOne 1).2) 1 = (false, managerAfterOne)) ∧
    ((subset_sum_manager_add_element (subset_sum_manager_create ManagerType.Fast) 1).2).elements
      = 1 :: (subset_sum_manager_create ManagerType.Fast).elements ∧
    ((subset_sum_manager_add_element (subset_sum_manager_create ManagerType.Fast) 1).2).sums_set.values
      = insert 1 ((subset_sum_manager_create ManagerType.Fast).sums_set.values ∪
          (subset_sum_manager_create ManagerType.Fast).sums_set.values.image (1 + ·)) :=
  ⟨(C3_atomicity managerAfterOne 1).1 (by decide),
   (C3_atomicity (subset_sum_manager_create ManagerType.Fast) 1).2 rfl (by decide)⟩

/-- C2: a matched `try_push`/`pop` pair is the identity on the observable
manager state: the element sequence, the stored sum set and the history
stack all return exactly to their values before the push (the starting
manager is arbitrary, so the property holds after any sequence of pushes
with matching pops).  The hash-table bucket count is container capacity, not
part of the sum set's value: a resize during the push is not undone. -/
theorem C2_push_pop_roundtrip (m m1 : SubsetSumManager) (v : Nat)
    (ht : m.mtype = ManagerType.Fast)
    (h : subset_sum_manager_add_element m v = (true, m1)) :
    (subset_sum_manager_remove_last m1).elements = m.elements ∧
    (subset_sum_manager_remove_last m1).sums_set.values = m.sums_set.values ∧
    (subset_sum_manager_remove_last m1).history = m.history ∧
    (subset_sum_manager_remove_last m1).mtype = m.mtype := by
  have hb : (subset_sum_manager_add_element m v).1 = true := by rw [h]
  have h2 : (subset_sum_manager_add_element m v).2 = m1 := by rw [h]
  obtain ⟨hv, hcs, hel, hval, hhist⟩ := add_element_fast_success m v ht hb
  rw [h2] at hel hval hhist
  have hmt : m1.mtype = ManagerType.Fast := by
    rw [← h2, add_element_mtype]
    exact ht
  have hlen : ¬ m1.elements.length = 0 := by
    rw [hel]
    simp
  have hrm : subset_sum_manager_remove_last m1 =
      { m1 with elements := m1.elements.tail,
                sums_set := { m1.sums_set with
                  values := m1.sums_set.values \ insert v (m.sums_set.values.image (v + ·)) },
                history := m.history } := by
    unfold subset_sum_manager_remove_last
    rw [if_neg hlen, hmt, hhist]
  rw [hrm]
  refine ⟨?_, ?_, rfl, hmt.trans ht.symm⟩
  · rw [hel]
    rfl
  · show m1.sums_set.values \ _ = m.sums_set.values
    rw [hval]
    exact new_sums_sdiff m.sums_set.values v hv hcs

theorem C2_push_pop_roundtrip_witness :
    (subset_sum_manager_remove_last managerAfterOne).elements
        = (subset_sum_manager_create ManagerType.Fast).elements ∧
    (subset_sum_manager_remove_last managerAfterOne).sums_set.values
        = (subset_sum_manager_create ManagerType.Fast).sums_set.values ∧
    (subset_sum_manager_remove_last managerAfterOne).history
        = (subset_sum_manager_create ManagerType.Fast).history ∧
    (subset_sum_manager_remove_last managerAfterOne).mtype
        = (subset_sum_manager_create ManagerType.Fast).mtype :=
  C2_push_pop_roundtrip (subset_sum_manager_create ManagerType.Fast) managerAfterOne 1
    rfl (by decide)

/-- C1 (amended): for a fast-mode manager reached by pushing only positive
values, `try_push(v)` returning true means every non-empty subset of the
extended sequence has a distinct sum, and returning false means the extended
sequence has two distinct non-empty subsets with equal sums. -/
theorem C1_collision_soundness (m : SubsetSumManager) (v : Nat)
    (hr : PosReached m) (ht : m.mtype = ManagerType.Fast) :
    ((subset_sum_manager_add_element m v).1 = true → CollFree (v :: m.elements)) ∧
    ((subset_sum_manager_add_element m v).1 = false → HasCollision (v :: m.elements)) := by
  obtain ⟨hS, hG, _⟩ := reached_fastInv (posReached_reached hr) ht
  constructor
  · intro hb
    obtain ⟨h1, h2, _, _, _⟩ := add_element_fast_success m v ht hb
    rw [hS] at h1 h2
    exact collFree_cons (posReached_collFree hr ht) (posReached_pos hr) ⟨h1, h2⟩
  · intro hb
    rw [add_element_fast_fst m v ht] at hb
    have hhit := (compute_fast_fail_iff m.sums_set v).mp hb
    rw [hS] at hhit
    exact hasCollision_cons_of_hit hhit

theorem C1_collision_soundness_witness :
    (((subset_sum_manager_add_element (subset_sum_manager_create ManagerType.Fast) 1).1 = true →
        CollFree (1 :: (subset_sum_manager_create ManagerType.Fast).elements)) ∧
      ((subset_sum_manager_add_element (subset_sum_manager_create ManagerType.Fast) 1).1 = false →
        HasCollision (1 :: (subset_sum_manager_create ManagerType.Fast).elements))) ∧
    (subset_sum_manager_add_element (subset_sum_manager_create ManagerType.Fast) 1).1 = true :=
  ⟨C1_collision_soundness _ 1 (PosReached.create _) rfl, by decide⟩

def managerAfterZero : SubsetSumManager :=
  (subset_sum_manager_add_element (subset_sum_manager_create ManagerType.Fast) 0).2

/-- C1 as stated is false when the value 0 is involved: the reachable
fast-mode state holding `E = [0]` accepts `try_push(1)` although `{0,1}` has
the two distinct non-empty subsets `{1}` and `{0,1}` with equal sums (the
check `contains(1 + 0) = contains(1)` looks for 1, not for the sum of the
subset `{0,1}`). -/
theorem C1_counterexample :
    Reached managerAfterZero ∧ managerAfterZero.mtype = ManagerType.Fast ∧
    (subset_sum_manager_add_element managerAfterZero 1).1 = true ∧
    HasCollision (1 :: managerAfterZero.elements) := by
  refine ⟨Reached.add _ 0 (Reached.create _), rfl, by decide, ?_⟩
  exact ⟨{0}, {0, 1}, by decide, by decide, by decide, by decide, by decide, by decide⟩

/-- C4 (amended): for every reachable fast-mode manager state the sum set
equals exactly the set of non-empty subset sums of the element sequence;
the cardinality `2^|E| − 1` additionally requires the elements to be
positive (pushing 0 is accepted by the check but collapses sums). -/
theorem C4_sum_coverage (m : SubsetSumManager) (hr : Reached m)
    (ht : m.mtype = ManagerType.Fast) :
    m.sums_set.values = subsetSums m.elements ∧
    ((∀ x ∈ m.elements, 0 < x) →
      m.sums_set.values.card = 2 ^ m.elements.length - 1) := by
  have hinv := reached_fastInv hr ht
  refine ⟨hinv.1, fun hpos => ?_⟩
  rw [hinv.1, card_subsetSums_of_collFree (goodSeq_collFree hinv.2.1 hpos)]

theorem C4_sum_coverage_witness :
    ((subset_sum_manager_create ManagerType.Fast).sums_set.values
        = subsetSums (subset_sum_manager_create ManagerType.Fast).elements ∧
      ((∀ x ∈ (subset_sum_manager_create ManagerType.Fast).elements, 0 < x) →
        (subset_sum_manager_create ManagerType.Fast).sums_set.values.card
          = 2 ^ (subset_sum_manager_create ManagerType.Fast).elements.length - 1)) ∧
    (subset_sum_manager_create ManagerType.Fast).sums_set.values.card
      = 2 ^ (subset_sum_manager_create ManagerType.Fast).elements.length - 1 :=
  ⟨C4_sum_coverage _ (Reached.create _) rfl,
   (C4_sum_coverage _ (Reached.create _) rfl).2 (by decide)⟩

def managerAfterZeroOne : SubsetSumManager :=
  (subset_sum_manager_add_element managerAfterZero 1).2

/-- C4 as stated is false: the reachable fast-mode state with `E = [1, 0]`
(0 pushed first, then 1) has `S = {0, 1}` of size 2, not `2^2 − 1 = 3`. -/
theorem C4_counterexample :
    Reached managerAfterZeroOne ∧ managerAfterZeroOne.mtype = ManagerType.Fast ∧
    managerAfterZeroOne.sums_set.values.card ≠ 2 ^ managerAfterZeroOne.elements.length - 1 :=
  ⟨Reached.add _ 1 (Reached.add _ 0 (Reached.create _)), rfl, by decide⟩

/-- C9 (amended): the hash set the fast-mode manager creates starts with
`INITIAL_BUCKET_COUNT = 1024` buckets (which satisfies the ≥ 1024
requirement), and an add doubles the bucket count exactly when the value is
new and `size / buckets > 0.75` held before the insertion. -/
theorem C9_bucket_growth :
    (subset_sum_manager_create ManagerType.Fast).sums_set.bucket_count = INITIAL_BUCKET_COUNT ∧
    INITIAL_BUCKET_COUNT = 1024 ∧ 1024 ≤ INITIAL_BUCKET_COUNT ∧
    (∀ (s : MpzHashSet) (v : Nat),
      ((mpz_hashset_add s v).2).bucket_count =
        if v ∉ s.values ∧ 4 * s.values.card > 3 * s.bucket_count then s.bucket_count * 2
        else s.bucket_count) :=
  ⟨rfl, rfl, by decide, mpz_hashset_add_bucket⟩

/-- C9 as stated is false: the bucket count of the newly created hash set is
1024, not 4096 (`mpz_hashset_create(INITIAL_BUCKET_COUNT)` with
`INITIAL_BUCKET_COUNT` defined as 1024). -/
theorem C9_counterexample :
    (subset_sum_manager_create ManagerType.Fast).sums_set.bucket_count = 1024 ∧
    (1024 : Nat) ≠ 4096 :=
  ⟨rfl, by decide⟩

def E63 : List Nat := (List.range 63).map (fun i => i + 2)

def manager63 : SubsetSumManager :=
  { mtype := ManagerType.Iterative, elements := E63,
    sums_set := mpz_hashset_create INITIAL_BUCKET_COUNT, history := [] }

theorem E63_length : E63.length = 63 := by
  simp [E63]

theorem E63_getD {i : Nat} (h : i < 63) : E63.getD i 0 = i + 2 := by
  have hlen : i < E63.length := by rw [E63_length]; exact h
  rw [List.getD_eq_getElem E63 0 hlen]
  simp [E63]

/-- No non-empty subset of `E63 = {2,…,64}` sums to 1: Test A cannot fire. -/
theorem E63_testA_false : ¬ iterTestA E63 1 := by
  rintro ⟨mask, hmask, hsum⟩
  rw [Finset.mem_Ico] at hmask
  obtain ⟨hm1, hm2⟩ := hmask
  obtain ⟨i, hbit⟩ := Nat.ne_zero_implies_bit_true (x := mask) (by omega)
  have hge := Nat.testBit_implies_ge hbit
  have hi : i < 63 := by
    by_contra hge63
    push_neg at hge63
    have hpow : 2 ^ 63 ≤ 2 ^ i := Nat.pow_le_pow_right (by norm_num) hge63
    rw [E63_length] at hm2
    omega
  have hle : i + 2 ≤ maskSum E63 mask := by
    unfold maskSum
    calc i + 2 = (fun j => if mask.testBit j then E63.getD j 0 else 0) i := by
          show i + 2 = if mask.testBit i then E63.getD i 0 else 0
          rw [if_pos hbit, E63_getD hi]
      _ ≤ ∑ j ∈ Finset.range E63.length, if mask.testBit j then E63.getD j 0 else 0 :=
          Finset.single_le_sum (f := fun j => if mask.testBit j then E63.getD j 0 else 0)
            (fun j _ => Nat.zero_le _)
            (by rw [E63_length]; exact Finset.mem_range.mpr hi)
  omega

/-- C5: the repository violates the claim.  On an iterative-mode manager
with 63 elements `{2,…,64}`, `try_push(1)` does not report any error: the
`n > 62` code path runs only Test A (which finds no subset of `E` summing
to 1) and silently returns the no-collision verdict, so the element is
pushed — although `{1} ∪ E` has the collision `1 + 2 = 3`, which the full
`n ≤ 62` check (Test B) does detect. -/
theorem C5_silent_partial_check :
    manager63.elements.length = 63 ∧
    subset_sum_manager_has_collision_iterative manager63 1 = false ∧
    subset_sum_manager_add_element manager63 1 = (true, { manager63 with elements := 1 :: E63 }) ∧
    hasCollisionBitmask E63 1 = true ∧
    HasCollision (1 :: manager63.elements) := by
  have hcoll : subset_sum_manager_has_collision_iterative manager63 1 = false := by
    unfold subset_sum_manager_has_collision_iterative
    rw [show manager63.elements = E63 from rfl, E63_length]
    rw [if_neg (by omega), if_neg (by omega)]
    unfold hasCollisionSlowPath
    exact decide_eq_false E63_testA_false
  refine ⟨E63_length, hcoll, ?_, ?_, ?_⟩
  · have heq : subset_sum_manager_add_element manager63 1 =
        (if subset_sum_manager_has_collision_iterative manager63 1 then (false, manager63)
         else (true, { manager63 with elements := 1 :: manager63.elements })) := rfl
    rw [heq, hcoll]
    rfl
  · have hB : iterTestB E63 1 := by
      refine ⟨1, ?_, 2, ?_, ?_, ?_⟩
      · rw [Finset.mem_Ico, E63_length]
        exact ⟨by decide, by decide⟩
      · rw [Finset.mem_Ico, E63_length]
        exact ⟨by decide, by decide⟩
      · decide
      · decide
    unfold hasCollisionBitmask
    rw [decide_eq_true hB]
    simp
  · exact ⟨{0, 1}, {2}, by decide, by decide, by decide, by decide, by decide, by decide⟩

/-- C6: whenever a run of `backtrack_solver_solve` finishes with no solution
found, the result record carries an empty set and `max_value = 0`, its
status is INTERRUPTED when the stop flag is set and NO_SOLUTION otherwise,
and a status other than OPTIMAL occurs exactly in this no-solution case. -/
theorem C6_failure_record (cfg : SolverConfig) (fuel : Nat) (res : SolutionResult)
    (st : SolverState)
    (h : backtrack_solver_solve cfg fuel = some (res, st)) :
    (res.status ≠ SolutionStatus.OPTIMAL ↔ st.has_solution = false) ∧
    (st.has_solution = false →
      res.solution_set = [] ∧ res.max_value = 0 ∧
      res.status = (if cfg.stop_flag then SolutionStatus.INTERRUPTED
                    else SolutionStatus.NO_SOLUTION)) := by
  unfold backtrack_solver_solve at h
  split at h
  · exact absurd h (by simp)
  · rename_i stF heq
    simp only [Option.some.injEq, Prod.mk.injEq] at h
    obtain ⟨hres, hst⟩ := h
    subst hres
    subst hst
    have hsf : (effectiveConfig cfg).stop_flag = cfg.stop_flag := rfl
    by_cases hs : stF.has_solution
    · simp [mkSolutionResult, hs]
    · rw [Bool.not_eq_true] at hs
      by_cases hstop : cfg.stop_flag <;>
        simp [mkSolutionResult, hs, hsf, hstop]

def cfgNoSolution : SolverConfig :=
  { n := 2, initial_bound := 1, find_all_optimal := false, first_only := false,
    manager_type := ManagerType.Fast, stop_flag := false }

def stNoSolution : SolverState :=
  { manager := subset_sum_manager_create ManagerType.Fast,
    best_max := 1, best_solution := [], has_solution := false, all_optimal := [],
    nodes_explored := 1, solutions_found := 0, current_depth := 0 }

def resNoSolution : SolutionResult :=
  { n := 2, max_value := 0, solution_set := [], status := SolutionStatus.NO_SOLUTION,
    nodes_explored := 1 }

theorem C6_failure_record_witness :
    (resNoSolution.status ≠ SolutionStatus.OPTIMAL ↔ stNoSolution.has_solution = false) ∧
    (stNoSolution.has_solution = false →
      resNoSolution.solution_set = [] ∧ resNoSolution.max_value = 0 ∧
      resNoSolution.status = (if cfgNoSolution.stop_flag then SolutionStatus.INTERRUPTED
                              else SolutionStatus.NO_SOLUTION)) :=
  C6_failure_record cfgNoSolution 2 resNoSolution stNoSolution (by decide)
